import Mathlib

/-!
Verification of the ironstorm_lookup in-memory substring lookup table
(src/src/lib.rs).

The embedding models:
- `BTreeMap` as an association list kept strictly sorted by key
  (`mapInsert`, `mapFindD`, `mapFloor`); the floor query
  `range((Unbounded, Included k)).rev().next()` becomes `mapFloor`,
  the greatest key less than or equal to the query.
- `String` as `List Char` (the Rust code matches byte-exactly on UTF-8;
  code-point sequences are order- and occurrence-isomorphic to the byte
  form because UTF-8 is self-synchronizing).
- the external `suffix::SuffixTable` collaborator by the text it is built
  from, with its `positions` query modelled from the spec's engine
  contract (all, possibly overlapping, occurrence start offsets).
- the `find` iterator as the list of values it yields; the `panic!`
  branch of `get_value_for_position` as an `Option` that is `none`
  (theorems below show it never is, on positions `find` queries).
-/

/-! ## Sorted association lists (model of BTreeMap) -/

/-- Keys of a `List (κ × β)` association list are strictly increasing;
the representation invariant of a BTreeMap modelled as a sorted list. -/
def mapSorted {κ β : Type _} [LinearOrder κ] (m : List (κ × β)) : Prop :=
  m.Pairwise (fun a b => a.1 < b.1)

/-- BTreeMap insert: place `(k, v)` at its sorted position, replacing any
entry with the same key. -/
def mapInsert {κ β : Type _} [LinearOrder κ] (k : κ) (v : β) :
    List (κ × β) → List (κ × β)
  | [] => [(k, v)]
  | e :: rest =>
    if k < e.1 then (k, v) :: e :: rest
    else if e.1 < k then e :: mapInsert k v rest
    else (k, v) :: rest

/-- BTreeMap get with a default value (model of `entry(k).or_insert_with(d)`
followed by reading the entry). -/
def mapFindD {κ β : Type _} [LinearOrder κ] (m : List (κ × β)) (k : κ) (d : β) : β :=
  match m with
  | [] => d
  | e :: rest => if e.1 = k then e.2 else mapFindD rest k d

/-- BTreeMap floor query: the entry with the greatest key that is `≤ q`
(on a sorted list: the last such entry), i.e. the Rust
`range((Unbounded, Included q)).rev().next()`. -/
def mapFloor {κ β : Type _} [LinearOrder κ] (q : κ) :
    List (κ × β) → Option (κ × β)
  | [] => none
  | e :: rest => if e.1 ≤ q then some ((mapFloor q rest).getD e) else mapFloor q rest

/-! ## The source embedding (src/src/lib.rs) -/

/-- The reserved sentinel separator `"\u{FFFF}"` (a single code point). -/
def SEPARATOR : Char := Char.ofNat 65535

/-- The `Lookup` trait: a searchable text and a bucket per value. -/
class Lookup (V : Type) where
  searchable_text : V → List Char
  bucket : V → Nat

/-- Position (overlapping) occurrences of `pat` in `text`: all start
offsets `i` with `text[i .. i + pat.length] = pat`. -/
def matchesAt (text pat : List Char) (i : Nat) : Bool :=
  decide ((text.drop i).take pat.length = pat)

/-- All (possibly overlapping) occurrence start offsets of `pat` in `text`,
in ascending order. -/
def occPositions (text pat : List Char) : List Nat :=
  (List.range (text.length + 1 - pat.length)).filter (matchesAt text pat)

/-- Number of (possibly overlapping) occurrences of `pat` in `text`. -/
def occCount (text pat : List Char) : Nat :=
  (occPositions text pat).length

/-- The per-bucket substring index. The real structure (crate `suffix`,
an external collaborator of this repository) is an opaque suffix table
built from the corpus text; the model keeps the text itself. -/
structure SuffixTable where
  text : List Char
deriving DecidableEq

/-- Model of `SuffixTable::new(text)`. -/
def SuffixTable.new (text : List Char) : SuffixTable := ⟨text⟩

/-- Modelled from the spec: the Substring-Occurrence Engine contract of the
external `suffix` crate (not part of this repository): `positions`
returns every (possibly overlapping) start offset at which the query
occurs in the indexed text. The actual crate returns an empty slice when
the indexed text or the query is empty, and imposes no ordering contract;
the model returns offsets in ascending order. -/
def SuffixTable.positions (st : SuffixTable) (query : List Char) : List Nat :=
  if st.text.isEmpty || query.isEmpty then [] else occPositions st.text query

/-- The `LookupTable` struct: a `BTreeMap<Bucket, SuffixTable>` and a
`BTreeMap<(Bucket, TextPosition), V>`, both modelled as sorted
association lists; position keys are ordered lexicographically, as Rust
tuples are. -/
structure LookupTable (V : Type) where
  suffix_table_map : List (Nat × SuffixTable)
  position_map : List (Lex (Nat × Nat) × V)

/-- One iteration of the construction loop of `from_iter`: read the
bucket's corpus (empty if absent), use its length as the record's start
position, append the record's searchable text and the separator, and
insert the record under `(bucket, position)`. -/
def buildStep {V : Type} [Lookup V]
    (maps : List (Nat × List Char) × List (Lex (Nat × Nat) × V)) (value : V) :
    List (Nat × List Char) × List (Lex (Nat × Nat) × V) :=
  let text := mapFindD maps.1 (Lookup.bucket value) []
  let pos : Nat := text.length
  (mapInsert (Lookup.bucket value) (text ++ Lookup.searchable_text value ++ [SEPARATOR]) maps.1,
   mapInsert (toLex (Lookup.bucket value, pos)) value maps.2)

/-- Model of `LookupTable::from_iter`: fold the construction loop over the
input sequence, then build one suffix table per bucket from its final
corpus text. -/
def from_iter {V : Type} [Lookup V] (l : List V) : LookupTable V :=
  let maps := l.foldl buildStep ([], [])
  { suffix_table_map :=
      maps.1.foldl (fun m e => mapInsert e.1 (SuffixTable.new e.2) m) [],
    position_map := maps.2 }

/-- Model of `LookupTable::get_value_for_position`: floor lookup of
`(bucket, text_position)` in the position map. The Rust function panics
when no floor entry exists; the model returns `none` in that case. -/
def LookupTable.get_value_for_position {V : Type} (t : LookupTable V)
    (bucket : Nat) (text_position : Nat) : Option V :=
  (mapFloor (toLex (bucket, text_position)) t.position_map).map (fun e => e.2)

/-- The `(bucket, position)` pairs queried by `find`, in the order the
iterator visits them: buckets in ascending key order of
`suffix_table_map`, and within a bucket the engine's occurrence offsets. -/
def LookupTable.findPositions {V : Type} (t : LookupTable V)
    (search_text : List Char) : List (Nat × Nat) :=
  t.suffix_table_map.flatMap
    (fun e => (e.2.positions search_text).map (fun p => (e.1, p)))

/-- Model of `LookupTable::find`: resolve every queried position through
`get_value_for_position`; a (provably unreachable) `none` yields nothing,
standing in for the Rust panic. -/
def LookupTable.find {V : Type} (t : LookupTable V) (search_text : List Char) :
    List V :=
  (t.findPositions search_text).filterMap
    (fun bp => t.get_value_for_position bp.1 bp.2)

/-- Model of `LookupTable::len`: size of the position map. -/
def LookupTable.len {V : Type} (t : LookupTable V) : Nat :=
  t.position_map.length

/-- Model of `LookupTable::bucket_count`: size of the suffix table map. -/
def LookupTable.bucket_count {V : Type} (t : LookupTable V) : Nat :=
  t.suffix_table_map.length

/-- Number of results of `find search_text` that resolve (through the
floor lookup) to the position-map entry with key `k`; i.e. how many times
`find` yields a reference to that particular ingested record. -/
def LookupTable.yieldsFor {V : Type} (t : LookupTable V)
    (search_text : List Char) (k : Lex (Nat × Nat)) : Nat :=
  (t.findPositions search_text).countP
    (fun bp =>
      match mapFloor (toLex (bp.1, bp.2)) t.position_map with
      | some e => decide (e.1 = k)
      | none => false)

/-! ## Spec-side description of the corpus builder -/

/-- The records of bucket `b`, in traversal order. -/
def recordsOf {V : Type} [Lookup V] (b : Nat) (l : List V) : List V :=
  l.filter (fun v => decide (Lookup.bucket v = b))

/-- The corpus text formed by the records `vs` (in order): each record's
searchable text followed by the sentinel. -/
def corpusOf {V : Type} [Lookup V] (vs : List V) : List Char :=
  vs.flatMap (fun v => Lookup.searchable_text v ++ [SEPARATOR])

/-- Start offsets of consecutive records appended to a corpus whose
current length is `a`: each record starts at the current length and
advances it by its text length plus one (the separator). -/
def segsFrom {V : Type} [Lookup V] (a : Nat) : List V → List (Nat × V)
  | [] => []
  | v :: rest => (a, v) :: segsFrom (a + (Lookup.searchable_text v).length + 1) rest

/-- Start offsets of the records `vs` within their bucket's corpus. -/
def segsOf {V : Type} [Lookup V] (vs : List V) : List (Nat × V) :=
  segsFrom 0 vs

/-! ## A concrete record type for witnesses -/

/-- A concrete `Lookup` implementor used to evaluate the theorems on
concrete tables. -/
structure Item where
  text : List Char
  bkt : Nat
deriving DecidableEq

instance : Lookup Item := ⟨Item.text, Item.bkt⟩

/-! ## Lemmas about the sorted association list operations -/

theorem mem_of_mem_mapInsert {κ β : Type _} [LinearOrder κ] {k : κ} {v : β}
    {m : List (κ × β)} {x : κ × β} (h : x ∈ mapInsert k v m) : x = (k, v) ∨ x ∈ m := by
  induction m with
  | nil => simpa [mapInsert] using h
  | cons e rest ih =>
    simp only [mapInsert] at h
    split_ifs at h with h1 h2
    · simp only [List.mem_cons] at h ⊢
      tauto
    · simp only [List.mem_cons] at h ⊢
      rcases h with h | h
      · tauto
      · rcases ih h with h | h <;> tauto
    · simp only [List.mem_cons] at h ⊢
      tauto

theorem mapSorted_mapInsert {κ β : Type _} [LinearOrder κ] {k : κ} {v : β}
    {m : List (κ × β)} (hs : mapSorted m) : mapSorted (mapInsert k v m) := by
  induction m with
  | nil => simp [mapSorted, mapInsert]
  | cons e rest ih =>
    simp only [mapSorted, List.pairwise_cons] at hs
    obtain ⟨he, hrest⟩ := hs
    simp only [mapInsert]
    split_ifs with h1 h2
    · simp only [mapSorted, List.pairwise_cons] at ih ⊢
      refine ⟨?_, he, hrest⟩
      intro b hb
      rcases List.mem_cons.mp hb with rfl | hb
      · exact h1
      · exact lt_trans h1 (he b hb)
    · simp only [mapSorted, List.pairwise_cons]
      refine ⟨?_, ih hrest⟩
      intro b hb
      rcases mem_of_mem_mapInsert hb with rfl | hb
      · exact h2
      · exact he b hb
    · have hek : e.1 = k := le_antisymm (not_lt.mp h1) (not_lt.mp h2)
      simp only [mapSorted, List.pairwise_cons]
      refine ⟨?_, hrest⟩
      intro b hb
      simpa [hek] using he b hb

theorem mem_mapInsert {κ β : Type _} [LinearOrder κ] {k : κ} {v : β}
    {m : List (κ × β)} (hs : mapSorted m) {x : κ × β} :
    x ∈ mapInsert k v m ↔ x = (k, v) ∨ (x ∈ m ∧ x.1 ≠ k) := by
  induction m with
  | nil => simp [mapInsert]
  | cons e rest ih =>
    simp only [mapSorted, List.pairwise_cons] at hs
    obtain ⟨he, hrest⟩ := hs
    simp only [mapInsert]
    split_ifs with h1 h2
    · simp only [List.mem_cons]
      constructor
      · rintro (h | h | h)
        · exact Or.inl h
        · refine Or.inr ⟨Or.inl h, ?_⟩
          subst h
          exact ne_of_gt h1
        · refine Or.inr ⟨Or.inr h, ?_⟩
          exact ne_of_gt (lt_trans h1 (he x h))
      · rintro (h | ⟨h, hne⟩)
        · exact Or.inl h
        · exact Or.inr h
    · simp only [List.mem_cons, ih hrest]
      constructor
      · rintro (h | h)
        · subst h
          refine Or.inr ⟨Or.inl rfl, ne_of_lt h2⟩
        · rcases h with h | ⟨h, hne⟩
          · exact Or.inl h
          · exact Or.inr ⟨Or.inr h, hne⟩
      · rintro (h | ⟨h | h, hne⟩)
        · exact Or.inr (Or.inl h)
        · exact Or.inl h
        · exact Or.inr (Or.inr ⟨h, hne⟩)
    · have hek : e.1 = k := le_antisymm (not_lt.mp h1) (not_lt.mp h2)
      simp only [List.mem_cons]
      constructor
      · rintro (h | h)
        · exact Or.inl h
        · refine Or.inr ⟨Or.inr h, ?_⟩
          have := he x h
          rw [hek] at this
          exact ne_of_gt this
      · rintro (h | ⟨h | h, hne⟩)
        · exact Or.inl h
        · subst h
          exact absurd hek hne
        · exact Or.inr h

theorem length_mapInsert_fresh {κ β : Type _} [LinearOrder κ] {k : κ} {v : β}
    {m : List (κ × β)} (h : ∀ e ∈ m, e.1 ≠ k) :
    (mapInsert k v m).length = m.length + 1 := by
  induction m with
  | nil => simp [mapInsert]
  | cons e rest ih =>
    simp only [mapInsert]
    split_ifs with h1 h2
    · simp
    · simp only [List.length_cons]
      rw [ih]
      intro f hf
      exact h f (List.mem_cons_of_mem e hf)
    · exact absurd (le_antisymm (not_lt.mp h1) (not_lt.mp h2))
        (h e (List.mem_cons_self e rest))

theorem mapFindD_of_mem {κ β : Type _} [LinearOrder κ] {k : κ} {t d : β}
    {m : List (κ × β)} (hs : mapSorted m) (h : (k, t) ∈ m) :
    mapFindD m k d = t := by
  induction m with
  | nil => simp at h
  | cons e rest ih =>
    simp only [mapSorted, List.pairwise_cons] at hs
    obtain ⟨he, hrest⟩ := hs
    rcases List.mem_cons.mp h with h | h
    · simp [mapFindD, ← h]
    · have hne : e.1 ≠ k := ne_of_lt (he (k, t) h)
      simp only [mapFindD, if_neg hne]
      exact ih hrest h

theorem mapFindD_fresh {κ β : Type _} [LinearOrder κ] {k : κ} {d : β}
    {m : List (κ × β)} (h : ∀ e ∈ m, e.1 ≠ k) :
    mapFindD m k d = d := by
  induction m with
  | nil => simp [mapFindD]
  | cons e rest ih =>
    simp only [mapFindD, if_neg (h e (List.mem_cons_self e rest))]
    exact ih (fun f hf => h f (List.mem_cons_of_mem e hf))

theorem mapFloor_mem {κ β : Type _} [LinearOrder κ] {q : κ}
    {m : List (κ × β)} {e : κ × β} (h : mapFloor q m = some e) : e ∈ m := by
  induction m with
  | nil => simp [mapFloor] at h
  | cons f rest ih =>
    simp only [mapFloor] at h
    split_ifs at h with h1
    · cases hr : mapFloor q rest with
      | none => simp [hr] at h; simp [← h]
      | some r =>
        simp only [hr, Option.getD_some, Option.some_inj] at h
        exact List.mem_cons_of_mem f (ih (h ▸ hr))
    · exact List.mem_cons_of_mem f (ih h)

theorem mapFloor_le {κ β : Type _} [LinearOrder κ] {q : κ}
    {m : List (κ × β)} {e : κ × β} (h : mapFloor q m = some e) : e.1 ≤ q := by
  induction m with
  | nil => simp [mapFloor] at h
  | cons f rest ih =>
    simp only [mapFloor] at h
    split_ifs at h with h1
    · cases hr : mapFloor q rest with
      | none => simp [hr] at h; simpa [← h] using h1
      | some r =>
        simp only [hr, Option.getD_some, Option.some_inj] at h
        exact ih (h ▸ hr)
    · exact ih h

theorem mapFloor_isSome {κ β : Type _} [LinearOrder κ] {q : κ}
    {m : List (κ × β)} {e : κ × β} (he : e ∈ m) (hle : e.1 ≤ q) :
    ∃ r, mapFloor q m = some r := by
  induction m with
  | nil => simp at he
  | cons f rest ih =>
    simp only [mapFloor]
    rcases List.mem_cons.mp he with rfl | he
    · simp only [if_pos hle]
      exact ⟨_, rfl⟩
    · by_cases h1 : f.1 ≤ q
      · simp only [if_pos h1]
        exact ⟨_, rfl⟩
      · simp only [if_neg h1]
        exact ih he

theorem mapFloor_max {κ β : Type _} [LinearOrder κ] {q : κ}
    {m : List (κ × β)} {e : κ × β} (hs : mapSorted m)
    (h : mapFloor q m = some e) :
    ∀ f ∈ m, f.1 ≤ q → f.1 ≤ e.1 := by
  induction m with
  | nil => simp [mapFloor] at h
  | cons g rest ih =>
    simp only [mapSorted, List.pairwise_cons] at hs
    obtain ⟨hg, hrest⟩ := hs
    simp only [mapFloor] at h
    intro f hf hfq
    split_ifs at h with h1
    · cases hr : mapFloor q rest with
      | none =>
        simp only [hr, Option.getD_none, Option.some_inj] at h
        subst h
        rcases List.mem_cons.mp hf with rfl | hf
        · exact le_refl _
        · exact absurd hr (by
            obtain ⟨r, hrr⟩ := mapFloor_isSome hf hfq
            simp [hrr])
      | some r =>
        simp only [hr, Option.getD_some, Option.some_inj] at h
        subst h
        rcases List.mem_cons.mp hf with rfl | hf
        · exact le_of_lt (hg _ (mapFloor_mem hr))
        · exact ih hrest hr f hf hfq
    · rcases List.mem_cons.mp hf with rfl | hf
      · exact absurd hfq h1
      · exact ih hrest h f hf hfq

theorem mapSorted_key_inj {κ β : Type _} [LinearOrder κ]
    {m : List (κ × β)} (hs : mapSorted m) {e f : κ × β}
    (he : e ∈ m) (hf : f ∈ m) (hk : e.1 = f.1) : e = f := by
  by_contra hne
  have hsym : Symmetric (fun a b : κ × β => a.1 ≠ b.1) := by
    intro a b hab
    exact (Ne.symm hab)
  have := (hs.imp (fun hab => ne_of_lt hab)).forall hsym he hf hne
  exact this hk

theorem mapFloor_pinpoint {κ β : Type _} [LinearOrder κ] {q : κ}
    {m : List (κ × β)} {e : κ × β} (hs : mapSorted m)
    (he : e ∈ m) (hle : e.1 ≤ q)
    (hub : ∀ f ∈ m, e.1 < f.1 → q < f.1) :
    mapFloor q m = some e := by
  obtain ⟨r, hr⟩ := mapFloor_isSome he hle
  have hrm : r ∈ m := mapFloor_mem hr
  have hrq : r.1 ≤ q := mapFloor_le hr
  have hmax : e.1 ≤ r.1 := mapFloor_max hs hr e he hle
  rcases lt_or_eq_of_le hmax with hlt | heq
  · exact absurd hrq (not_le_of_lt (hub r hrm hlt))
  · rw [hr, mapSorted_key_inj hs hrm he heq.symm]

theorem mapInsert_above {κ β : Type _} [LinearOrder κ] {k : κ} {v : β}
    {m : List (κ × β)} (h : ∀ e ∈ m, e.1 < k) :
    mapInsert k v m = m ++ [(k, v)] := by
  induction m with
  | nil => simp [mapInsert]
  | cons e rest ih =>
    have hek := h e (List.mem_cons_self e rest)
    simp only [mapInsert, if_neg (not_lt_of_lt hek), if_pos hek, List.cons_append]
    rw [ih (fun f hf => h f (List.mem_cons_of_mem e hf))]

theorem foldl_mapInsert_aux {κ β γ : Type _} [LinearOrder κ]
    (f : β → γ) (m : List (κ × β)) :
    ∀ acc : List (κ × γ), mapSorted m → mapSorted acc →
      (∀ a ∈ acc, ∀ e ∈ m, a.1 < e.1) →
      m.foldl (fun acc e => mapInsert e.1 (f e.2) acc) acc
        = acc ++ m.map (fun e => (e.1, f e.2)) := by
  induction m with
  | nil =>
    intro acc _ _ _
    simp
  | cons e rest ih =>
    intro acc hm hacc hlt
    simp only [mapSorted, List.pairwise_cons] at hm
    obtain ⟨he, hrest⟩ := hm
    simp only [List.foldl_cons, List.map_cons]
    rw [mapInsert_above (fun a ha => hlt a ha e (List.mem_cons_self e rest))]
    have hacc2 : mapSorted (acc ++ [(e.1, f e.2)]) := by
      rw [mapSorted, List.pairwise_append]
      refine ⟨hacc, by simp, ?_⟩
      intro a ha b hb
      simp only [List.mem_singleton] at hb
      subst hb
      exact hlt a ha e (List.mem_cons_self e rest)
    have hlt2 : ∀ a ∈ acc ++ [(e.1, f e.2)], ∀ x ∈ rest, a.1 < x.1 := by
      intro a ha x hx
      rcases List.mem_append.mp ha with ha | ha
      · exact hlt a ha x (List.mem_cons_of_mem e hx)
      · simp only [List.mem_singleton] at ha
        subst ha
        exact he x hx
    rw [ih (acc ++ [(e.1, f e.2)]) hrest hacc2 hlt2]
    simp

theorem foldl_mapInsert_eq_map {κ β γ : Type _} [LinearOrder κ]
    (f : β → γ) (m : List (κ × β)) (hs : mapSorted m) :
    m.foldl (fun acc e => mapInsert e.1 (f e.2) acc) []
      = m.map (fun e => (e.1, f e.2)) := by
  simpa using foldl_mapInsert_aux f m [] hs (by simp [mapSorted]) (by simp)

/-! ## Lemmas about the corpus and segment descriptions -/

theorem recordsOf_append {V : Type} [Lookup V] (b : Nat) (l : List V) (v : V) :
    recordsOf b (l ++ [v])
      = recordsOf b l ++ if Lookup.bucket v = b then [v] else [] := by
  simp only [recordsOf, List.filter_append]
  congr 1
  by_cases h : Lookup.bucket v = b <;> simp [h]

theorem recordsOf_not_mem {V : Type} [Lookup V] {b : Nat} {l : List V} {v : V}
    (h : v ∈ recordsOf b l) : v ∈ l ∧ Lookup.bucket v = b := by
  have := List.mem_filter.mp h
  simpa using this

theorem recordsOf_append_self {V : Type} [Lookup V] (l : List V) (v : V) :
    recordsOf (Lookup.bucket v) (l ++ [v])
      = recordsOf (Lookup.bucket v) l ++ [v] := by
  rw [recordsOf_append]
  simp

theorem recordsOf_append_ne {V : Type} [Lookup V] {b : Nat} (l : List V) (v : V)
    (hb : Lookup.bucket v ≠ b) :
    recordsOf b (l ++ [v]) = recordsOf b l := by
  rw [recordsOf_append, if_neg hb, List.append_nil]

theorem corpusOf_cons {V : Type} [Lookup V] (v : V) (vs : List V) :
    corpusOf (v :: vs)
      = Lookup.searchable_text v ++ [SEPARATOR] ++ corpusOf vs := by
  simp [corpusOf, List.append_assoc]

theorem corpusOf_append {V : Type} [Lookup V] (vs ws : List V) :
    corpusOf (vs ++ ws) = corpusOf vs ++ corpusOf ws := by
  simp [corpusOf]

theorem corpusOf_singleton {V : Type} [Lookup V] (v : V) :
    corpusOf [v] = Lookup.searchable_text v ++ [SEPARATOR] := by
  simp [corpusOf]

theorem length_corpusOf_cons {V : Type} [Lookup V] (v : V) (vs : List V) :
    (corpusOf (v :: vs)).length
      = (Lookup.searchable_text v).length + 1 + (corpusOf vs).length := by
  simp [corpusOf_cons]
  omega

theorem segsFrom_append_singleton {V : Type} [Lookup V] (a : Nat) (vs : List V)
    (w : V) :
    segsFrom a (vs ++ [w])
      = segsFrom a vs ++ [(a + (corpusOf vs).length, w)] := by
  induction vs generalizing a with
  | nil => simp [segsFrom, corpusOf]
  | cons v vs ih =>
    have harith : a + (Lookup.searchable_text v).length + 1 + (corpusOf vs).length
        = a + ((Lookup.searchable_text v).length + 1 + (corpusOf vs).length) := by
      omega
    simp only [List.cons_append, segsFrom, List.append_eq, ih,
      length_corpusOf_cons, harith]

theorem segsFrom_bounds {V : Type} [Lookup V] {a p : Nat} {w : V}
    {vs : List V} (h : (p, w) ∈ segsFrom a vs) :
    a ≤ p ∧ p + (Lookup.searchable_text w).length + 1
      ≤ a + (corpusOf vs).length := by
  induction vs generalizing a with
  | nil => simp [segsFrom] at h
  | cons v vs ih =>
    simp only [segsFrom, List.mem_cons] at h
    rcases h with h | h
    · injection h with h1 h2
      subst h1
      subst h2
      rw [length_corpusOf_cons]
      omega
    · have := ih h
      rw [length_corpusOf_cons]
      omega

theorem segsFrom_mem_record {V : Type} [Lookup V] {a p : Nat} {w : V}
    {vs : List V} (h : (p, w) ∈ segsFrom a vs) : w ∈ vs := by
  induction vs generalizing a with
  | nil => simp [segsFrom] at h
  | cons v vs ih =>
    simp only [segsFrom, List.mem_cons] at h
    rcases h with h | h
    · injection h with h1 h2
      simp [h2]
    · exact List.mem_cons_of_mem v (ih h)

theorem segsFrom_gap {V : Type} [Lookup V] (a : Nat) (vs : List V) :
    (segsFrom a vs).Pairwise
      (fun x y => x.1 + (Lookup.searchable_text x.2).length + 1 ≤ y.1) := by
  induction vs generalizing a with
  | nil => simp [segsFrom]
  | cons v vs ih =>
    simp only [segsFrom, List.pairwise_cons]
    refine ⟨?_, ih _⟩
    intro y hy
    have := (segsFrom_bounds hy).1
    omega

theorem segsFrom_sorted {V : Type} [Lookup V] (a : Nat) (vs : List V) :
    mapSorted (segsFrom a vs) := by
  refine (segsFrom_gap a vs).imp ?_
  intro x y h
  omega

/-! ## Characterization of the constructed table -/

/-- The text map (bucket → growing corpus) after the construction loop. -/
def textMapOf {V : Type} [Lookup V] (l : List V) : List (Nat × List Char) :=
  (l.foldl buildStep ([], [])).1

/-- The position map after the construction loop. -/
def posMapOf {V : Type} [Lookup V] (l : List V) : List (Lex (Nat × Nat) × V) :=
  (l.foldl buildStep ([], [])).2

theorem position_map_from_iter {V : Type} [Lookup V] (l : List V) :
    (from_iter l).position_map = posMapOf l := rfl

theorem textMapOf_append {V : Type} [Lookup V] (l : List V) (v : V) :
    textMapOf (l ++ [v]) = mapInsert (Lookup.bucket v)
      (mapFindD (textMapOf l) (Lookup.bucket v) []
        ++ Lookup.searchable_text v ++ [SEPARATOR])
      (textMapOf l) := by
  simp [textMapOf, List.foldl_append, buildStep]

theorem posMapOf_append {V : Type} [Lookup V] (l : List V) (v : V) :
    posMapOf (l ++ [v]) = mapInsert
      (toLex (Lookup.bucket v, (mapFindD (textMapOf l) (Lookup.bucket v) []).length))
      v (posMapOf l) := by
  simp [textMapOf, posMapOf, List.foldl_append, buildStep]

/-- Invariant of the construction loop: both maps are sorted, the text map
holds exactly the corpus of each non-empty bucket, the position map holds
exactly the records at their segment start offsets, and no record is
lost. -/
theorem build_inv {V : Type} [Lookup V] (l : List V) :
    mapSorted (textMapOf l) ∧ mapSorted (posMapOf l) ∧
    (∀ b t, (b, t) ∈ textMapOf l
      ↔ (recordsOf b l ≠ [] ∧ t = corpusOf (recordsOf b l))) ∧
    (∀ b p (v : V), (toLex (b, p), v) ∈ posMapOf l
      ↔ (p, v) ∈ segsOf (recordsOf b l)) ∧
    (posMapOf l).length = l.length := by
  induction l using List.reverseRecOn with
  | nil =>
    refine ⟨by simp [mapSorted, textMapOf], by simp [mapSorted, posMapOf],
      ?_, ?_, by simp [posMapOf]⟩
    · intro b t
      simp [textMapOf, recordsOf]
    · intro b p v
      simp [posMapOf, segsOf, segsFrom, recordsOf]
  | append_singleton l v ih =>
    obtain ⟨htmS, hpmS, htm, hpm, hlen⟩ := ih
    have hfind : mapFindD (textMapOf l) (Lookup.bucket v) []
        = corpusOf (recordsOf (Lookup.bucket v) l) := by
      by_cases hrec : recordsOf (Lookup.bucket v) l = []
      · rw [hrec]
        have hfresh : ∀ e ∈ textMapOf l, e.1 ≠ Lookup.bucket v := by
          intro e he hk
          have := (htm e.1 e.2).mp (by simpa using he)
          rw [hk] at this
          exact this.1 hrec
        simp [mapFindD_fresh hfresh, corpusOf]
      · exact mapFindD_of_mem htmS
          ((htm (Lookup.bucket v) (corpusOf (recordsOf (Lookup.bucket v) l))).mpr
            ⟨hrec, rfl⟩)
    -- freshness of the inserted position key
    have hfresh : ∀ e ∈ posMapOf l,
        e.1 ≠ toLex (Lookup.bucket v, (corpusOf (recordsOf (Lookup.bucket v) l)).length) := by
      intro e he hk
      have he2 : (toLex (ofLex e.1), e.2) ∈ posMapOf l := by
        simpa using he
      have hmem := (hpm (ofLex e.1).1 (ofLex e.1).2 e.2).mp (by simpa using he2)
      have hof : ofLex e.1
          = (Lookup.bucket v, (corpusOf (recordsOf (Lookup.bucket v) l)).length) := by
        simpa using congrArg ofLex hk
      rw [hof] at hmem
      have := (segsFrom_bounds hmem).2
      simp only [Nat.zero_add] at this
      omega
    refine ⟨?_, ?_, ?_, ?_, ?_⟩
    · rw [textMapOf_append]
      exact mapSorted_mapInsert htmS
    · rw [posMapOf_append]
      exact mapSorted_mapInsert hpmS
    · intro b t
      rw [textMapOf_append, mem_mapInsert htmS, hfind]
      rcases eq_or_ne (Lookup.bucket v) b with hb | hb
      · rw [← hb, recordsOf_append_self]
        constructor
        · rintro (h | ⟨h, hne⟩)
          · injection h with h1 h2
            refine ⟨by simp, ?_⟩
            rw [h2, corpusOf_append, corpusOf_singleton, List.append_assoc]
          · exact absurd rfl hne
        · rintro ⟨hne, ht⟩
          left
          rw [corpusOf_append, corpusOf_singleton] at ht
          rw [ht, List.append_assoc]
      · rw [recordsOf_append_ne l v hb]
        constructor
        · rintro (h | ⟨h, hne⟩)
          · injection h with h1 h2
            exact absurd h1.symm hb
          · exact (htm b t).mp h
        · intro h
          exact Or.inr ⟨(htm b t).mpr h, fun hk => hb hk.symm⟩
    · intro b p w
      rw [posMapOf_append, mem_mapInsert hpmS, hfind]
      rcases eq_or_ne (Lookup.bucket v) b with hb | hb
      · rw [← hb, segsOf, recordsOf_append_self, segsFrom_append_singleton,
          Nat.zero_add]
        constructor
        · rintro (h | ⟨h, hne⟩)
          · injection h with h1 h2
            have h3 : ((Lookup.bucket v : Nat), p)
                = (Lookup.bucket v, (corpusOf (recordsOf (Lookup.bucket v) l)).length) := by
              simpa using congrArg ofLex h1
            injection h3 with h4 h5
            rw [h5, h2]
            simp
          · have hseg := (hpm (Lookup.bucket v) p w).mp h
            rw [segsOf] at hseg
            simp only [List.mem_append]
            exact Or.inl hseg
        · intro h
          rcases List.mem_append.mp h with h | h
          · right
            refine ⟨(hpm (Lookup.bucket v) p w).mpr (by rw [segsOf]; exact h), ?_⟩
            intro hk
            have h3 : ((Lookup.bucket v : Nat), p)
                = (Lookup.bucket v, (corpusOf (recordsOf (Lookup.bucket v) l)).length) := by
              simpa using congrArg ofLex hk
            injection h3 with h4 h5
            have := (segsFrom_bounds h).2
            omega
          · left
            simp only [List.mem_singleton] at h
            injection h with h1 h2
            rw [h1, h2]
      · rw [segsOf, recordsOf_append_ne l v hb, ← segsOf]
        constructor
        · rintro (h | ⟨h, hne⟩)
          · injection h with h1 h2
            have h3 : (b, p)
                = (Lookup.bucket v, (corpusOf (recordsOf (Lookup.bucket v) l)).length) := by
              simpa using congrArg ofLex h1
            injection h3 with h4 h5
            exact absurd h4.symm hb
          · exact (hpm b p w).mp h
        · intro h
          right
          refine ⟨(hpm b p w).mpr h, ?_⟩
          intro hk
          have h3 : (b, p)
              = (Lookup.bucket v, (corpusOf (recordsOf (Lookup.bucket v) l)).length) := by
            simpa using congrArg ofLex hk
          injection h3 with h4 h5
          exact hb h4.symm
    · rw [posMapOf_append, hfind, length_mapInsert_fresh hfresh, hlen]
      simp

/-! ## Occurrence positions in a sentinel-separated corpus -/

theorem occPositions_nil {pat : List Char} (h : pat ≠ []) :
    occPositions [] pat = [] := by
  have : 1 - pat.length = 0 := by
    have := List.length_pos.mpr h
    omega
  simp [occPositions, this]

theorem matchesAt_too_long {text pat : List Char} {i : Nat} (hne : pat ≠ [])
    (h : text.length < i + pat.length) : matchesAt text pat i = false := by
  simp only [matchesAt, decide_eq_false_iff_not]
  intro hEq
  have hlen := congrArg List.length hEq
  simp only [List.length_take, List.length_drop] at hlen
  have := List.length_pos.mpr hne
  omega

theorem matchesAt_cons_succ (c : Char) (xs pat : List Char) (i : Nat) :
    matchesAt (c :: xs) pat (i + 1) = matchesAt xs pat i := by
  simp [matchesAt, List.drop_succ_cons]

theorem occPositions_cons (c : Char) (xs pat : List Char) (h : pat ≠ []) :
    occPositions (c :: xs) pat
      = (if matchesAt (c :: xs) pat 0 then [0] else [])
        ++ (occPositions xs pat).map (fun i => i + 1) := by
  have hp : 0 < pat.length := List.length_pos.mpr h
  simp only [occPositions]
  by_cases hle : pat.length ≤ xs.length + 1
  · have hrange : (c :: xs).length + 1 - pat.length
        = (xs.length + 1 - pat.length) + 1 := by
      simp only [List.length_cons]
      omega
    rw [hrange, List.range_succ_eq_map, List.filter_cons, List.filter_map]
    have hfc : List.filter (matchesAt (c :: xs) pat ∘ Nat.succ)
          (List.range (xs.length + 1 - pat.length))
        = List.filter (matchesAt xs pat)
          (List.range (xs.length + 1 - pat.length)) :=
      List.filter_congr (fun i _ => matchesAt_cons_succ c xs pat i)
    rw [hfc]
    have hmapeq :
        (List.filter (matchesAt xs pat)
          (List.range (xs.length + 1 - pat.length))).map Nat.succ
        = (List.filter (matchesAt xs pat)
          (List.range (xs.length + 1 - pat.length))).map (fun i => i + 1) := by
      refine List.map_congr_left ?_
      intro i _
      rfl
    rw [hmapeq]
    by_cases hm : matchesAt (c :: xs) pat 0 = true
    · rw [if_pos hm, if_pos hm]
      rfl
    · rw [if_neg hm, if_neg hm]
      rfl
  · have h0 : (c :: xs).length + 1 - pat.length = 0 := by
      simp only [List.length_cons]
      omega
    have h1 : xs.length + 1 - pat.length = 0 := by omega
    have hm : matchesAt (c :: xs) pat 0 = false := by
      refine matchesAt_too_long h ?_
      simp only [List.length_cons]
      omega
    rw [h0, h1, hm]
    simp

theorem matchesAt_zero_sep_append {t rest pat : List Char}
    (hsep : SEPARATOR ∉ pat) :
    matchesAt (t ++ [SEPARATOR] ++ rest) pat 0 = matchesAt t pat 0 := by
  simp only [matchesAt, List.drop_zero]
  refine decide_eq_decide.mpr ?_
  by_cases hle : pat.length ≤ t.length
  · have ht : List.take pat.length (t ++ [SEPARATOR] ++ rest)
        = List.take pat.length t := by
      rw [List.append_assoc]
      exact List.take_append_of_le_length hle
    rw [ht]
  · constructor
    · intro hEq
      exfalso
      have hsplit : List.take pat.length (t ++ ([SEPARATOR] ++ rest))
          = t ++ List.take (pat.length - t.length) ([SEPARATOR] ++ rest) := by
        have h4 := @List.take_append Char t ([SEPARATOR] ++ rest)
          (pat.length - t.length)
        have h5 : t.length + (pat.length - t.length) = pat.length := by omega
        rw [h5] at h4
        exact h4
      rw [List.append_assoc, hsplit] at hEq
      have hm : SEPARATOR
          ∈ t ++ List.take (pat.length - t.length) ([SEPARATOR] ++ rest) := by
        refine List.mem_append.mpr (Or.inr ?_)
        have hk : pat.length - t.length = (pat.length - t.length - 1) + 1 := by
          omega
        rw [hk, List.singleton_append, List.take_succ_cons]
        exact List.mem_cons_self _ _
      rw [hEq] at hm
      exact hsep hm
    · intro hEq
      exfalso
      have := congrArg List.length hEq
      simp only [List.length_take] at this
      omega

theorem occPositions_sep_append (t rest pat : List Char) (hne : pat ≠ [])
    (hsep : SEPARATOR ∉ pat) :
    occPositions (t ++ [SEPARATOR] ++ rest) pat
      = occPositions t pat
        ++ (occPositions rest pat).map (fun i => i + (t.length + 1)) := by
  induction t with
  | nil =>
    simp only [List.nil_append, List.singleton_append]
    rw [occPositions_cons _ _ _ hne]
    have hm : matchesAt (SEPARATOR :: rest) pat 0 = false := by
      cases pat with
      | nil => exact absurd rfl hne
      | cons p ps =>
        simp only [matchesAt, List.drop_zero, decide_eq_false_iff_not]
        intro hEq
        rw [List.length_cons, List.take_succ_cons] at hEq
        injection hEq with h1 h2
        subst h1
        exact hsep (List.mem_cons_self _ _)
    rw [hm]
    simp [occPositions_nil hne]
  | cons ch t iht =>
    have hassoc : (ch :: t) ++ [SEPARATOR] ++ rest
        = ch :: (t ++ [SEPARATOR] ++ rest) := by
      simp
    rw [hassoc, occPositions_cons _ _ _ hne, iht,
      occPositions_cons ch t pat hne]
    have hh : matchesAt ((ch :: t) ++ [SEPARATOR] ++ rest) pat 0
        = matchesAt (ch :: t) pat 0 := matchesAt_zero_sep_append hsep
    rw [hassoc] at hh
    rw [hh]
    have hfun : (occPositions rest pat).map
          ((fun i => i + 1) ∘ (fun i => i + (t.length + 1)))
        = (occPositions rest pat).map
          (fun i => i + ((ch :: t).length + 1)) := by
      refine List.map_congr_left ?_
      intro i _
      simp only [Function.comp_apply, List.length_cons]
      omega
    simp only [List.map_append, List.map_map, List.append_assoc, hfun]

theorem segsFrom_shift {V : Type} [Lookup V] (a : Nat) (vs : List V) :
    ∀ b, segsFrom (a + b) vs
      = (segsFrom b vs).map (fun ov => (ov.1 + a, ov.2)) := by
  induction vs with
  | nil =>
    intro b
    simp [segsFrom]
  | cons v vs ih =>
    intro b
    simp only [segsFrom, List.map_cons]
    have h1 : a + b = b + a := Nat.add_comm a b
    have h2 : b + a + (Lookup.searchable_text v).length + 1
        = a + (b + (Lookup.searchable_text v).length + 1) := by omega
    rw [h1, h2, ih (b + (Lookup.searchable_text v).length + 1)]

theorem flatMap_shift {γ : Type _} (L : List (Nat × γ)) (f : γ → List Nat)
    (a : Nat) :
    (L.map (fun ov => (ov.1 + a, ov.2))).flatMap
        (fun ov => (f ov.2).map (fun i => i + ov.1))
      = (L.flatMap (fun ov => (f ov.2).map (fun i => i + ov.1))).map
          (fun i => i + a) := by
  induction L with
  | nil => simp
  | cons x L ih =>
    simp only [List.map_cons, List.flatMap_cons, List.map_append, ih,
      List.map_map]
    congr 1
    refine List.map_congr_left ?_
    intro i _
    simp only [Function.comp_apply]
    omega

theorem occPositions_corpus {V : Type} [Lookup V] (vs : List V)
    (pat : List Char) (hne : pat ≠ []) (hsep : SEPARATOR ∉ pat) :
    occPositions (corpusOf vs) pat
      = (segsOf vs).flatMap
          (fun ov => (occPositions (Lookup.searchable_text ov.2) pat).map
            (fun i => i + ov.1)) := by
  induction vs with
  | nil => simp [corpusOf, segsOf, segsFrom, occPositions_nil hne]
  | cons v vs ih =>
    rw [corpusOf_cons, occPositions_sep_append _ _ _ hne hsep, ih]
    simp only [segsOf, segsFrom, List.flatMap_cons, Nat.zero_add]
    have hshift : segsFrom ((Lookup.searchable_text v).length + 1) vs
        = (segsFrom 0 vs).map
            (fun ov => (ov.1 + ((Lookup.searchable_text v).length + 1), ov.2)) := by
      have := segsFrom_shift ((Lookup.searchable_text v).length + 1) vs 0
      simpa using this
    rw [hshift, flatMap_shift (segsFrom 0 vs)
      (fun c => occPositions (Lookup.searchable_text c) pat)
      ((Lookup.searchable_text v).length + 1)]
    congr 1
    simp

/-! ## Derived facts about the constructed table -/

theorem suffix_table_map_from_iter {V : Type} [Lookup V] (l : List V) :
    (from_iter l).suffix_table_map
      = (textMapOf l).map (fun e => (e.1, SuffixTable.new e.2)) :=
  foldl_mapInsert_eq_map SuffixTable.new (textMapOf l) (build_inv l).1

theorem stm_sorted {V : Type} [Lookup V] (l : List V) :
    mapSorted ((from_iter l).suffix_table_map) := by
  rw [suffix_table_map_from_iter, mapSorted, List.pairwise_map]
  exact (build_inv l).1

theorem stm_mem {V : Type} [Lookup V] {l : List V} {b : Nat} {st : SuffixTable} :
    (b, st) ∈ (from_iter l).suffix_table_map
      ↔ (recordsOf b l ≠ [] ∧ st = SuffixTable.new (corpusOf (recordsOf b l))) := by
  rw [suffix_table_map_from_iter, List.mem_map]
  constructor
  · rintro ⟨e, he, heq⟩
    injection heq with h1 h2
    obtain ⟨hne, hcorp⟩ := ((build_inv l).2.2.1 e.1 e.2).mp (by simpa using he)
    rw [← h1, ← h2, hcorp]
    exact ⟨hne, rfl⟩
  · rintro ⟨hne, hst⟩
    refine ⟨(b, corpusOf (recordsOf b l)), ?_, ?_⟩
    · exact ((build_inv l).2.2.1 b _).mpr ⟨hne, rfl⟩
    · rw [hst]

theorem posMap_zero_key {V : Type} [Lookup V] {l : List V} {b : Nat}
    (h : recordsOf b l ≠ []) :
    ∃ w, (toLex (b, 0), w) ∈ (from_iter l).position_map := by
  rw [position_map_from_iter]
  cases hrec : recordsOf b l with
  | nil => exact absurd hrec h
  | cons w rest =>
    refine ⟨w, ((build_inv l).2.2.2.1 b 0 w).mpr ?_⟩
    rw [segsOf, hrec, segsFrom]
    exact List.mem_cons_self _ _

theorem pm_sorted {V : Type} [Lookup V] (l : List V) :
    mapSorted ((from_iter l).position_map) := by
  rw [position_map_from_iter]
  exact (build_inv l).2.1

theorem floor_same_bucket {V : Type} [Lookup V] {l : List V} {b p : Nat}
    (h : recordsOf b l ≠ []) :
    ∃ e, mapFloor (toLex (b, p)) (from_iter l).position_map = some e
      ∧ (ofLex e.1).1 = b := by
  obtain ⟨w, hw⟩ := posMap_zero_key h
  have hle : (toLex ((b : Nat), (0 : Nat))) ≤ toLex (b, p) := by
    rw [Prod.Lex.le_iff]
    right
    exact ⟨rfl, Nat.zero_le p⟩
  obtain ⟨r, hr⟩ := mapFloor_isSome hw hle
  refine ⟨r, hr, ?_⟩
  have h1 : r.1 ≤ toLex (b, p) := mapFloor_le hr
  have h2 : toLex ((b : Nat), (0 : Nat)) ≤ r.1 :=
    mapFloor_max (pm_sorted l) hr _ hw hle
  have h1b : (ofLex r.1).1 < b ∨ ((ofLex r.1).1 = b ∧ (ofLex r.1).2 ≤ p) := by
    rw [show r.1 = toLex (ofLex r.1) from rfl] at h1
    exact (Prod.Lex.le_iff _ _).mp h1
  have h2b : b < (ofLex r.1).1 ∨ (b = (ofLex r.1).1 ∧ 0 ≤ (ofLex r.1).2) := by
    rw [show r.1 = toLex (ofLex r.1) from rfl] at h2
    exact (Prod.Lex.le_iff _ _).mp h2
  rcases h1b with h1b | ⟨h1c, h1d⟩ <;> rcases h2b with h2b | ⟨h2c, h2d⟩ <;> omega

theorem posMap_value_bucket {V : Type} [Lookup V] {l : List V}
    {e : Lex (Nat × Nat) × V} (h : e ∈ (from_iter l).position_map) :
    Lookup.bucket e.2 = (ofLex e.1).1 := by
  rw [position_map_from_iter] at h
  have h2 := ((build_inv l).2.2.2.1 (ofLex e.1).1 (ofLex e.1).2 e.2).mp
    (by simpa using h)
  have h3 := segsFrom_mem_record h2
  exact (recordsOf_not_mem h3).2

theorem positions_eq_occPositions {st : SuffixTable} {pat : List Char}
    (hne : pat ≠ []) (htext : st.text ≠ []) :
    st.positions pat = occPositions st.text pat := by
  rw [SuffixTable.positions, if_neg]
  simp [hne, htext]

theorem corpusOf_ne_nil {V : Type} [Lookup V] {vs : List V} (h : vs ≠ []) :
    corpusOf vs ≠ [] := by
  cases vs with
  | nil => exact absurd rfl h
  | cons v vs =>
    rw [corpusOf_cons]
    simp

theorem occPositions_mem_bound {text pat : List Char} {i : Nat}
    (hne : pat ≠ []) (h : i ∈ occPositions text pat) :
    i + pat.length ≤ text.length := by
  have h1 := (List.mem_filter.mp h).1
  have h2 := List.mem_range.mp h1
  have := List.length_pos.mpr hne
  omega

/-! ## Counting helpers -/

theorem countP_flatMap_zero {α β : Type _} (p : β → Bool) (f : α → List β)
    (xs : List α) (h : ∀ x ∈ xs, (f x).countP p = 0) :
    (xs.flatMap f).countP p = 0 := by
  induction xs with
  | nil => simp
  | cons x xs ih =>
    rw [List.flatMap_cons, List.countP_append, h x (List.mem_cons_self x xs),
      ih (fun y hy => h y (List.mem_cons_of_mem x hy))]

theorem countP_flatMap_single {α β : Type _} (p : β → Bool) (f : α → List β)
    {xs : List α} {x : α} (hmem : x ∈ xs) (hnd : xs.Nodup)
    (h0 : ∀ y ∈ xs, y ≠ x → (f y).countP p = 0) :
    (xs.flatMap f).countP p = (f x).countP p := by
  obtain ⟨s, t, rfl⟩ := List.append_of_mem hmem
  rw [List.flatMap_append, List.flatMap_cons, List.countP_append,
    List.countP_append]
  obtain ⟨hs1, hs2, hdisj⟩ := List.nodup_append.mp hnd
  have hxs : x ∉ s := by
    intro hx
    exact hdisj hx (List.mem_cons_self x t)
  have hxt : x ∉ t := (List.nodup_cons.mp hs2).1
  have hcs : (s.flatMap f).countP p = 0 := by
    refine countP_flatMap_zero p f s ?_
    intro y hy
    refine h0 y (List.mem_append_left _ hy) ?_
    intro hyx
    exact hxs (hyx ▸ hy)
  have hct : (t.flatMap f).countP p = 0 := by
    refine countP_flatMap_zero p f t ?_
    intro y hy
    refine h0 y (List.mem_append_right _ (List.mem_cons_of_mem x hy)) ?_
    intro hyx
    exact hxt (hyx ▸ hy)
  rw [hcs, hct]
  omega

theorem pairwise_filterMap_of {α β : Type _} (f : α → Option β)
    {R : β → β → Prop} {l : List α}
    (h : l.Pairwise (fun a b => ∀ x y, f a = some x → f b = some y → R x y)) :
    (l.filterMap f).Pairwise R := by
  induction l with
  | nil => simp
  | cons a l ih =>
    rw [List.pairwise_cons] at h
    obtain ⟨ha, hl⟩ := h
    cases hfa : f a with
    | none =>
      rw [List.filterMap_cons_none hfa]
      exact ih hl
    | some b =>
      rw [List.filterMap_cons_some hfa, List.pairwise_cons]
      refine ⟨?_, ih hl⟩
      intro y hy
      obtain ⟨a2, ha2, hfa2⟩ := List.mem_filterMap.mp hy
      exact ha a2 ha2 b y hfa hfa2

/-- A pattern occurrence inside a record's own text, shifted to its corpus
position, floor-resolves to exactly that record's position-map entry. -/
theorem floor_of_segment {V : Type} [Lookup V] {l : List V} {b off k : Nat}
    {w : V} {pat : List Char} (hne : pat ≠ [])
    (hseg : (off, w) ∈ segsOf (recordsOf b l))
    (hk : k ∈ occPositions (Lookup.searchable_text w) pat) :
    mapFloor (toLex (b, k + off)) (from_iter l).position_map
      = some (toLex (b, off), w) := by
  have hkb := occPositions_mem_bound hne hk
  have hplpos : 0 < pat.length := List.length_pos.mpr hne
  have hmem : (toLex (b, off), w) ∈ (from_iter l).position_map := by
    rw [position_map_from_iter]
    exact ((build_inv l).2.2.2.1 b off w).mpr hseg
  refine mapFloor_pinpoint (pm_sorted l) hmem ?_ ?_
  · rw [Prod.Lex.le_iff]
    right
    exact ⟨rfl, by omega⟩
  · intro f hf hlt
    have hf2 : (toLex ((ofLex f.1).1, (ofLex f.1).2), f.2) ∈ posMapOf l := by
      rw [← position_map_from_iter]
      simpa using hf
    have hfmem := ((build_inv l).2.2.2.1 (ofLex f.1).1 (ofLex f.1).2 f.2).mp hf2
    rw [show f.1 = toLex (ofLex f.1) from rfl] at hlt ⊢
    rw [Prod.Lex.lt_iff] at hlt ⊢
    rcases hlt with hlt | ⟨heq, hlt⟩
    · exact Or.inl hlt
    · right
      refine ⟨heq, ?_⟩
      rw [← heq] at hfmem
      have hne2 : ((off, w) : Nat × V) ≠ ((ofLex f.1).2, f.2) := by
        intro hcc
        injection hcc with hc1 hc2
        omega
      have hsymm : Symmetric (fun a c : Nat × V =>
          a.1 + (Lookup.searchable_text a.2).length + 1 ≤ c.1
            ∨ c.1 + (Lookup.searchable_text c.2).length + 1 ≤ a.1) := by
        intro a c h
        tauto
      have hgap := ((segsFrom_gap 0 (recordsOf b l)).imp
        (fun h => Or.inl h)).forall hsymm hseg hfmem hne2
      rcases hgap with hgap | hgap
      · simp only at hgap
        omega
      · simp only at hgap
        omega

/-- The number of `find` results resolving to a given ingested record equals
the number of occurrences of the (non-empty, sentinel-free) pattern in that
record's searchable text. -/
theorem yieldsFor_eq_occCount {V : Type} [Lookup V] (l : List V)
    (pat : List Char) (hne : pat ≠ []) (hsep : SEPARATOR ∉ pat)
    {bp pp : Nat} {v : V}
    (hmem : (toLex (bp, pp), v) ∈ (from_iter l).position_map) :
    (from_iter l).yieldsFor pat (toLex (bp, pp))
      = occCount (Lookup.searchable_text v) pat := by
  have hseg : (pp, v) ∈ segsOf (recordsOf bp l) := by
    have h0 : (toLex (bp, pp), v) ∈ posMapOf l := by
      rw [← position_map_from_iter]
      exact hmem
    exact ((build_inv l).2.2.2.1 bp pp v).mp h0
  have hrecne : recordsOf bp l ≠ [] := by
    intro hcc
    rw [segsOf, hcc, segsFrom] at hseg
    exact (List.not_mem_nil _) hseg
  have hstmem : ((bp, SuffixTable.new (corpusOf (recordsOf bp l))) :
      Nat × SuffixTable) ∈ (from_iter l).suffix_table_map :=
    stm_mem.mpr ⟨hrecne, rfl⟩
  have hstnd : ((from_iter l).suffix_table_map).Nodup := by
    refine (stm_sorted l).imp ?_
    intro a c h1 heq
    rw [heq] at h1
    exact lt_irrefl _ h1
  rw [LookupTable.yieldsFor, LookupTable.findPositions]
  have hz : ∀ y ∈ (from_iter l).suffix_table_map,
      y ≠ (bp, SuffixTable.new (corpusOf (recordsOf bp l))) →
      (((y.2.positions pat).map (fun q => (y.1, q))).countP
        (fun bq =>
          match mapFloor (toLex (bq.1, bq.2)) (from_iter l).position_map with
          | some e => decide (e.1 = toLex (bp, pp))
          | none => false)) = 0 := by
    rintro ⟨b2, st2⟩ hy hyne
    obtain ⟨hrec2, hst2⟩ := stm_mem.mp hy
    have hb2 : b2 ≠ bp := by
      intro hcc
      refine hyne ?_
      subst hcc
      exact mapSorted_key_inj (stm_sorted l) hy hstmem rfl
    rw [List.countP_map, List.countP_eq_zero]
    intro q hq
    obtain ⟨e, hfl, hflb⟩ := @floor_same_bucket V _ l b2 q hrec2
    simp only [Function.comp_apply]
    rw [hfl]
    have hkey : e.1 ≠ toLex (bp, pp) := by
      intro hcc
      have hof : (ofLex e.1).1 = bp := by
        rw [hcc]
        rfl
      exact hb2 (hflb.symm.trans hof)
    simp [hkey]
  refine Eq.trans (countP_flatMap_single _ _ hstmem hstnd hz) ?_
  simp only []
  have hpos : (SuffixTable.new (corpusOf (recordsOf bp l))).positions pat
      = occPositions (corpusOf (recordsOf bp l)) pat :=
    positions_eq_occPositions hne (corpusOf_ne_nil hrecne)
  rw [hpos, occPositions_corpus _ _ hne hsep, List.map_flatMap]
  have hsegnd : (segsOf (recordsOf bp l)).Nodup := by
    refine (segsFrom_sorted 0 (recordsOf bp l)).imp ?_
    intro a c h1 heq
    rw [heq] at h1
    exact lt_irrefl _ h1
  have hz2 : ∀ y ∈ segsOf (recordsOf bp l), y ≠ (pp, v) →
      ((((occPositions (Lookup.searchable_text y.2) pat).map
          (fun i => i + y.1)).map (fun q => (bp, q))).countP
        (fun bq =>
          match mapFloor (toLex (bq.1, bq.2)) (from_iter l).position_map with
          | some e => decide (e.1 = toLex (bp, pp))
          | none => false)) = 0 := by
    rintro ⟨off2, w2⟩ hy2 hyne2
    have hoff2 : off2 ≠ pp := by
      intro hcc
      refine hyne2 ?_
      subst hcc
      exact mapSorted_key_inj (segsFrom_sorted 0 _) hy2 hseg rfl
    rw [List.map_map, List.countP_map, List.countP_eq_zero]
    intro k hk
    have hfl := floor_of_segment hne hy2 hk
    simp only [Function.comp_apply]
    rw [hfl]
    have hkey : (toLex ((bp : Nat), off2)) ≠ toLex (bp, pp) := by
      intro hcc
      have := toLex_inj.mp hcc
      injection this with hc1 hc2
      exact hoff2 hc2
    simp [hkey]
  refine Eq.trans (countP_flatMap_single _ _ hseg hsegnd hz2) ?_
  simp only []
  rw [List.map_map, List.countP_map, occCount]
  refine List.countP_eq_length.mpr ?_
  intro k hk
  have hfl := floor_of_segment hne hseg hk
  simp only [Function.comp_apply]
  rw [hfl]
  simp

/-! ## Facts about the positions queried by find -/

theorem findPositions_mem {V : Type} [Lookup V] {l : List V} {pat : List Char}
    {bq : Nat × Nat} (h : bq ∈ (from_iter l).findPositions pat) :
    recordsOf bq.1 l ≠ [] ∧ pat ≠ []
      ∧ bq.2 ∈ occPositions (corpusOf (recordsOf bq.1 l)) pat := by
  rw [LookupTable.findPositions] at h
  obtain ⟨e, he, hbq⟩ := List.mem_flatMap.mp h
  obtain ⟨q, hq, hpair⟩ := List.mem_map.mp hbq
  obtain ⟨hrec, hst⟩ := stm_mem.mp (show (e.1, e.2) ∈ _ from by simpa using he)
  have hne : pat ≠ [] := by
    intro hcc
    rw [SuffixTable.positions, hcc] at hq
    simp at hq
  have htext : e.2.text ≠ [] := by
    rw [hst]
    exact corpusOf_ne_nil hrec
  rw [positions_eq_occPositions hne htext, hst] at hq
  rw [← hpair]
  exact ⟨hrec, hne, hq⟩

theorem resolve_bucket {V : Type} [Lookup V] {l : List V} {pat : List Char}
    {bq : Nat × Nat} {x : V} (h : bq ∈ (from_iter l).findPositions pat)
    (hx : (from_iter l).get_value_for_position bq.1 bq.2 = some x) :
    Lookup.bucket x = bq.1 := by
  obtain ⟨hrec, _, _⟩ := findPositions_mem h
  obtain ⟨e, hfl, hflb⟩ := @floor_same_bucket V _ l bq.1 bq.2 hrec
  rw [LookupTable.get_value_for_position, hfl] at hx
  simp only [Option.map_some'] at hx
  have hb := posMap_value_bucket (mapFloor_mem hfl)
  rw [Option.some_inj] at hx
  rw [← hx, hb, hflb]

theorem get_value_isSome {V : Type} [Lookup V] {l : List V} {pat : List Char}
    {bq : Nat × Nat} (h : bq ∈ (from_iter l).findPositions pat) :
    ((from_iter l).get_value_for_position bq.1 bq.2).isSome := by
  obtain ⟨hrec, _, _⟩ := findPositions_mem h
  obtain ⟨e, hfl, _⟩ := @floor_same_bucket V _ l bq.1 bq.2 hrec
  rw [LookupTable.get_value_for_position, hfl]
  rfl

theorem length_filterMap_of_some {α β : Type _} (f : α → Option β) :
    ∀ xs : List α, (∀ x ∈ xs, (f x).isSome) →
      (xs.filterMap f).length = xs.length := by
  intro xs
  induction xs with
  | nil =>
    intro _
    simp
  | cons x xs ih =>
    intro h
    cases hfx : f x with
    | none =>
      have h2 := h x (List.mem_cons_self x xs)
      rw [hfx] at h2
      simp at h2
    | some b =>
      rw [List.filterMap_cons_some hfx]
      simp only [List.length_cons]
      rw [ih (fun y hy => h y (List.mem_cons_of_mem x hy))]

theorem pairwise_flatMap_fst {β γ : Type _} (xs : List (Nat × γ))
    (f : Nat × γ → List (Nat × β)) (hs : mapSorted xs)
    (hf : ∀ e ∈ xs, ∀ q ∈ f e, (q : Nat × β).1 = e.1) :
    (xs.flatMap f).Pairwise (fun a c => a.1 ≤ c.1) := by
  induction xs with
  | nil => simp
  | cons x xs ih =>
    rw [mapSorted, List.pairwise_cons] at hs
    obtain ⟨hx, hxs⟩ := hs
    rw [List.flatMap_cons, List.pairwise_append]
    refine ⟨?_, ?_, ?_⟩
    · refine List.pairwise_of_forall_mem_list ?_
      intro a ha c hc
      rw [hf x (List.mem_cons_self x xs) a ha,
        hf x (List.mem_cons_self x xs) c hc]
    · exact ih hxs (fun e he q hq => hf e (List.mem_cons_of_mem x he) q hq)
    · intro a ha c hc
      obtain ⟨y, hy, hcy⟩ := List.mem_flatMap.mp hc
      rw [hf x (List.mem_cons_self x xs) a ha,
        hf y (List.mem_cons_of_mem x hy) c hcy]
      exact le_of_lt (hx y hy)

theorem findPositions_bucket_pairwise {V : Type} [Lookup V] (l : List V)
    (pat : List Char) :
    ((from_iter l).findPositions pat).Pairwise (fun a c => a.1 ≤ c.1) := by
  rw [LookupTable.findPositions]
  refine pairwise_flatMap_fst _ _ (stm_sorted l) ?_
  intro e _ q hq
  obtain ⟨q2, _, hq2⟩ := List.mem_map.mp hq
  rw [← hq2]

theorem recordsOf_ne_nil_iff {V : Type} [Lookup V] (b : Nat) (l : List V) :
    recordsOf b l ≠ [] ↔ b ∈ l.map Lookup.bucket := by
  rw [recordsOf, Ne, List.filter_eq_nil_iff]
  push_neg
  simp

/-! ## The claims -/

/-- C1: Bucket-ordering of results: across the whole result sequence of
`find`, buckets are ascending: whenever one yielded record precedes
another, the earlier record's bucket is at most the later one's. In
particular, for two matching records r1, r2 with bucket r1 < bucket r2,
every result for r1 precedes every result for r2. -/
theorem find_buckets_ascending {V : Type} [Lookup V] (l : List V)
    (pat : List Char) :
    ((from_iter l).find pat).Pairwise
      (fun v w => Lookup.bucket v ≤ Lookup.bucket w) := by
  rw [LookupTable.find]
  refine pairwise_filterMap_of _ ?_
  refine List.Pairwise.imp_of_mem ?_ (findPositions_bucket_pairwise l pat)
  intro a c ha hc hle x y hx hy
  rw [resolve_bucket ha hx, resolve_bucket hc hy]
  exact hle

/-- C2 counterexample: all records ("a" and "b", both bucket 0) are
sentinel-free, yet for the pattern "a￿ b" (which contains the
sentinel and spans the record boundary) `find` yields the record "a" once
while the pattern occurs zero times in that record's searchable text: the
multiplicity claim fails for patterns containing the sentinel. -/
theorem multiplicity_counterexample :
    (∀ v ∈ [Item.mk ['a'] 0, Item.mk ['b'] 0],
      SEPARATOR ∉ Lookup.searchable_text v)
    ∧ (toLex (0, 0), Item.mk ['a'] 0)
        ∈ (from_iter [Item.mk ['a'] 0, Item.mk ['b'] 0]).position_map
    ∧ (from_iter [Item.mk ['a'] 0, Item.mk ['b'] 0]).yieldsFor
        ['a', SEPARATOR, 'b'] (toLex (0, 0)) = 1
    ∧ occCount (Lookup.searchable_text (Item.mk ['a'] 0))
        ['a', SEPARATOR, 'b'] = 0
    ∧ (from_iter [Item.mk ['a'] 0, Item.mk ['b'] 0]).yieldsFor
          ['a', SEPARATOR, 'b'] (toLex (0, 0))
        ≠ occCount (Lookup.searchable_text (Item.mk ['a'] 0))
          ['a', SEPARATOR, 'b'] := by
  decide

/-- C2 (amended): multiplicity and exact matching — for every non-empty
pattern P that does not contain the sentinel, under the documented
precondition that no record's searchable text contains the sentinel, the
number of times `find P` yields a reference to an ingested record equals
the number of (possibly overlapping, code-point-exact) occurrences of P in
that record's searchable text. -/
theorem multiplicity_amended {V : Type} [Lookup V] (l : List V)
    (pat : List Char) (hne : pat ≠ []) (hsep : SEPARATOR ∉ pat)
    (_hrec : ∀ v ∈ l, SEPARATOR ∉ Lookup.searchable_text v) :
    ∀ e ∈ (from_iter l).position_map,
      (from_iter l).yieldsFor pat e.1
        = occCount (Lookup.searchable_text e.2) pat := by
  intro e he
  have he2 : (toLex ((ofLex e.1).1, (ofLex e.1).2), e.2)
      ∈ (from_iter l).position_map := by
    simpa using he
  have h := yieldsFor_eq_occCount l pat hne hsep he2
  simpa using h

/-- C2 witness: the record "aba" in bucket 2 is yielded twice by
`find "a"`, its two occurrences. -/
theorem multiplicity_amended_witness :
    (from_iter [Item.mk ['a', 'b', 'a'] 2]).yieldsFor ['a'] (toLex (2, 0))
      = 2 := by
  have h := multiplicity_amended [Item.mk ['a', 'b', 'a'] 2] ['a']
    (by decide) (by decide) (by decide)
    (toLex (2, 0), Item.mk ['a', 'b', 'a'] 2) (by decide)
  exact h.trans (by decide)

/-- C3: decode totality: every (bucket, offset) pair produced by querying a
bucket's engine with a sentinel-free pattern floor-resolves to an entry of
that same bucket whose record span (text plus trailing sentinel) contains
the offset; consequently no queried position is dropped — `find` yields
exactly one result per queried position and never surfaces an error. -/
theorem decode_total_no_panic {V : Type} [Lookup V] (l : List V)
    (pat : List Char) (hsep : SEPARATOR ∉ pat) :
    (∀ bq ∈ (from_iter l).findPositions pat,
      ∃ e, mapFloor (toLex (bq.1, bq.2)) (from_iter l).position_map = some e
        ∧ (ofLex e.1).1 = bq.1
        ∧ (ofLex e.1).2 ≤ bq.2
        ∧ bq.2 < (ofLex e.1).2 + (Lookup.searchable_text e.2).length + 1)
    ∧ ((from_iter l).find pat).length
        = ((from_iter l).findPositions pat).length := by
  constructor
  · intro bq hbq
    obtain ⟨hrecne, hne, hocc⟩ := findPositions_mem hbq
    rw [occPositions_corpus _ _ hne hsep] at hocc
    obtain ⟨ov, hov, hq⟩ := List.mem_flatMap.mp hocc
    obtain ⟨k, hk, hkq⟩ := List.mem_map.mp hq
    have hkq2 : k + ov.1 = bq.2 := hkq
    have hfl := floor_of_segment hne hov hk
    have hkb := occPositions_mem_bound hne hk
    have hpl := List.length_pos.mpr hne
    refine ⟨(toLex (bq.1, ov.1), ov.2), ?_, rfl, ?_, ?_⟩
    · rw [← hkq]
      exact hfl
    · simp only [ofLex_toLex]
      omega
    · simp only [ofLex_toLex]
      omega
  · rw [LookupTable.find]
    exact length_filterMap_of_some _ _ (fun bq hbq => get_value_isSome hbq)

/-- C3 witness: on a one-record table, `find "a"` resolves every queried
position and yields as many results as positions. -/
theorem decode_total_no_panic_witness :
    ((from_iter [Item.mk ['a'] 0]).find ['a']).length
      = ((from_iter [Item.mk ['a'] 0]).findPositions ['a']).length :=
  (decode_total_no_panic [Item.mk ['a'] 0] ['a'] (by decide)).2

/-- C4 counterexample: the pattern "a￿ b" occurs in no record's
searchable text, yet `find` yields a non-empty sequence (the match spans
the boundary between the records "a" and "b"): the no-match claim fails
for patterns containing the sentinel. -/
theorem no_match_counterexample :
    (∀ v ∈ [Item.mk ['a'] 0, Item.mk ['b'] 0],
      occCount (Lookup.searchable_text v) ['a', SEPARATOR, 'b'] = 0)
    ∧ (from_iter [Item.mk ['a'] 0, Item.mk ['b'] 0]).find
        ['a', SEPARATOR, 'b'] ≠ [] := by
  decide

/-- C4 (amended): no-match — for every pattern that does not contain the
sentinel, if the pattern occurs in no record's searchable text then
`find` yields the empty sequence. -/
theorem no_match_amended {V : Type} [Lookup V] (l : List V) (pat : List Char)
    (hsep : SEPARATOR ∉ pat)
    (h : ∀ v ∈ l, occCount (Lookup.searchable_text v) pat = 0) :
    (from_iter l).find pat = [] := by
  rw [LookupTable.find]
  have hfp : (from_iter l).findPositions pat = [] := by
    by_contra hcc
    obtain ⟨bq, hbq⟩ := List.exists_mem_of_ne_nil _ hcc
    obtain ⟨hrecne, hne, hocc⟩ := findPositions_mem hbq
    rw [occPositions_corpus _ _ hne hsep] at hocc
    obtain ⟨ov, hov, hq⟩ := List.mem_flatMap.mp hocc
    obtain ⟨k, hk, _⟩ := List.mem_map.mp hq
    have hrecv := segsFrom_mem_record hov
    have hz := h ov.2 (recordsOf_not_mem hrecv).1
    rw [occCount, List.length_eq_zero] at hz
    rw [hz] at hk
    exact List.not_mem_nil k hk
  rw [hfp]
  rfl

/-- C4 witness: records "A", "B", "C" and the pattern "D": no match, empty
result. -/
theorem no_match_amended_witness :
    (from_iter [Item.mk ['A'] 1, Item.mk ['B'] 1, Item.mk ['C'] 1]).find
      ['D'] = [] :=
  no_match_amended _ _ (by decide) (by decide)

/-- C5: corpus builder — position-map keys are strictly increasing in
(bucket, offset) lexicographic order (hence unique, with offsets strictly
increasing within each bucket); every ingested record is retained (one
entry per input element, processed in traversal order); each bucket's
suffix table is built from the corpus formed by appending, in traversal
order, each of that bucket's records' texts followed by the sentinel; and
every entry's offset is the corpus length at its insertion time — its
segment's start offset. -/
theorem builder_correct {V : Type} [Lookup V] (l : List V) :
    ((from_iter l).position_map.map (fun e => e.1)).Pairwise (· < ·)
    ∧ (from_iter l).position_map.length = l.length
    ∧ (∀ b st, (b, st) ∈ (from_iter l).suffix_table_map →
        st.text = corpusOf (recordsOf b l))
    ∧ (∀ e ∈ (from_iter l).position_map,
        ((ofLex e.1).2, e.2) ∈ segsOf (recordsOf (ofLex e.1).1 l)) := by
  refine ⟨?_, ?_, ?_, ?_⟩
  · have hs := pm_sorted l
    rw [mapSorted] at hs
    rw [List.pairwise_map]
    exact hs
  · rw [position_map_from_iter]
    exact (build_inv l).2.2.2.2
  · intro b st hmem
    obtain ⟨-, hst⟩ := stm_mem.mp hmem
    rw [hst]
    rfl
  · intro e he
    have he2 : (toLex ((ofLex e.1).1, (ofLex e.1).2), e.2) ∈ posMapOf l := by
      rw [← position_map_from_iter]
      simpa using he
    exact ((build_inv l).2.2.2.1 _ _ _).mp he2

/-- C5 witness: in a one-record table, bucket 0's suffix table text is the
record's text followed by the sentinel. -/
theorem builder_correct_witness :
    (SuffixTable.new ['a', SEPARATOR]).text
      = corpusOf (recordsOf 0 [Item.mk ['a'] 0]) :=
  (builder_correct [Item.mk ['a'] 0]).2.2.1 0
    (SuffixTable.new ['a', SEPARATOR]) (by decide)

/-- C6: size accessors — `len` equals the number of records consumed from
the input, and `bucket_count` equals the number of distinct bucket values
assigned to at least one ingested record; both only read the built
structure. -/
theorem size_accessors {V : Type} [Lookup V] (l : List V) :
    (from_iter l).len = l.length
    ∧ (from_iter l).bucket_count = (l.map Lookup.bucket).dedup.length := by
  constructor
  · rw [LookupTable.len, position_map_from_iter]
    exact (build_inv l).2.2.2.2
  · rw [LookupTable.bucket_count, suffix_table_map_from_iter, List.length_map]
    have hks : ((textMapOf l).map (fun e => e.1)).Nodup := by
      have hs := (build_inv l).1
      rw [mapSorted] at hs
      exact ((List.pairwise_map).mpr hs).imp (fun h => ne_of_lt h)
    have hmemeq : ∀ b : Nat, b ∈ (textMapOf l).map (fun e => e.1)
        ↔ b ∈ (l.map Lookup.bucket).dedup := by
      intro b
      rw [List.mem_dedup, ← recordsOf_ne_nil_iff]
      constructor
      · intro hb
        obtain ⟨e, he, hbe⟩ := List.mem_map.mp hb
        obtain ⟨hne, _⟩ := ((build_inv l).2.2.1 e.1 e.2).mp (by simpa using he)
        rw [← hbe]
        exact hne
      · intro hb
        refine List.mem_map.mpr ⟨(b, corpusOf (recordsOf b l)), ?_, rfl⟩
        exact ((build_inv l).2.2.1 b _).mpr ⟨hb, rfl⟩
    have h1 : ((textMapOf l).map (fun e => e.1)).toFinset
        = (l.map Lookup.bucket).dedup.toFinset := by
      ext b
      simp only [List.mem_toFinset]
      exact hmemeq b
    have h2 := List.toFinset_card_of_nodup hks
    have h3 := List.toFinset_card_of_nodup
      (List.nodup_dedup (l.map Lookup.bucket))
    calc (textMapOf l).length
        = ((textMapOf l).map (fun e => e.1)).length :=
          (List.length_map _ _).symm
      _ = ((textMapOf l).map (fun e => e.1)).toFinset.card := h2.symm
      _ = (l.map Lookup.bucket).dedup.toFinset.card := by rw [h1]
      _ = (l.map Lookup.bucket).dedup.length := h3

/-- C9: cross-map invariant — a bucket has a suffix table iff it occurs in
some position-map key; every materialized bucket has the key (b, 0); and
the unbounded-below floor lookup on any (bucket, offset) query for a
materialized bucket resolves to an entry of that same bucket, never a
lower one. -/
theorem cross_map_invariant {V : Type} [Lookup V] (l : List V) :
    (∀ b : Nat, (∃ st, (b, st) ∈ (from_iter l).suffix_table_map)
        ↔ ∃ e ∈ (from_iter l).position_map, (ofLex e.1).1 = b)
    ∧ (∀ b st, (b, st) ∈ (from_iter l).suffix_table_map →
        ∃ w, (toLex (b, 0), w) ∈ (from_iter l).position_map)
    ∧ (∀ b p st, (b, st) ∈ (from_iter l).suffix_table_map →
        ∃ e, mapFloor (toLex (b, p)) (from_iter l).position_map = some e
          ∧ (ofLex e.1).1 = b) := by
  refine ⟨?_, ?_, ?_⟩
  · intro b
    constructor
    · rintro ⟨st, hst⟩
      obtain ⟨w, hw⟩ := posMap_zero_key (stm_mem.mp hst).1
      exact ⟨(toLex (b, 0), w), hw, rfl⟩
    · rintro ⟨e, he, hb⟩
      have he2 : (toLex ((ofLex e.1).1, (ofLex e.1).2), e.2) ∈ posMapOf l := by
        rw [← position_map_from_iter]
        simpa using he
      have hseg := ((build_inv l).2.2.2.1 _ _ _).mp he2
      have hrec : recordsOf (ofLex e.1).1 l ≠ [] := by
        intro hcc
        rw [segsOf, hcc, segsFrom] at hseg
        exact List.not_mem_nil _ hseg
      rw [hb] at hrec
      exact ⟨SuffixTable.new (corpusOf (recordsOf b l)),
        stm_mem.mpr ⟨hrec, rfl⟩⟩
  · intro b st hst
    exact posMap_zero_key (stm_mem.mp hst).1
  · intro b p st hst
    exact @floor_same_bucket V _ l b p (stm_mem.mp hst).1

/-- C9 witness: on a one-record table in bucket 0, the floor lookup at
offset 5 of the materialized bucket 0 succeeds. -/
theorem cross_map_invariant_witness :
    (mapFloor (toLex (0, 5))
      (from_iter [Item.mk ['a'] 0]).position_map).isSome = true := by
  obtain ⟨e, he, -⟩ := (cross_map_invariant [Item.mk ['a'] 0]).2.2 0 5
    (SuffixTable.new ['a', SEPARATOR]) (by decide)
  rw [he]
  rfl

/-- C10: determinism of find — two invocations of `find` with the same
pattern on the table built from the same input yield exactly the same
result sequence, including the within-bucket order. -/
theorem find_deterministic {V : Type} [Lookup V] (l : List V)
    (pat : List Char) (r1 r2 : List V) (h1 : r1 = (from_iter l).find pat)
    (h2 : r2 = (from_iter l).find pat) : r1 = r2 :=
  h1.trans h2.symm

/-- C10 witness: two runs of `find "a"` on the same one-record table agree. -/
theorem find_deterministic_witness :
    (from_iter [Item.mk ['a'] 0]).find ['a']
      = (from_iter [Item.mk ['a'] 0]).find ['a'] :=
  find_deterministic [Item.mk ['a'] 0] ['a'] _ _ rfl rfl
